import Mathlib

/-!
Verification development for the loon_rule repository.

The repository converts a JSON document of network-filtering rules into
lines of the form `TYPE,CONTENT`.  Two variants exist:
`scripts/convert_to_loon_no_action.js` (general extractor + classifier)
and a schema-driven revision of the same file (`rules[].domain`,
`rules[].domain_suffix`, `rules[].domain_keyword` arrays with a
domain-cleaning pass).

This file shallowly embeds both variants.  JSON values are modelled by
the inductive type `Json` (numbers are modelled as integers: the inputs
of interest are integer literals and no claim depends on float
formatting).  JavaScript strings are modelled as `String` via their
`List Char` data; each regular expression of the source is translated
into an explicit decidable matcher on `List Char`.  `toLoonLines`, whose
recursion passes through a key lookup, is defined with an explicit
size-based fuel so that it evaluates by kernel reduction;
fuel-irrelevance lemmas below recover the clean recursion equations.
-/

namespace LoonRule

/-- A JSON value, as decoded by `JSON.parse`.  Objects keep key order and
are assumed to have pairwise distinct keys (as produced by `JSON.parse`). -/
inductive Json where
  | null : Json
  | bool : Bool → Json
  | num : Int → Json
  | str : String → Json
  | arr : List Json → Json
  | obj : List (String × Json) → Json

mutual

/-- A computable structural size for `Json`, used as fuel for `toLoonLines`. -/
def jsize : Json → Nat
  | .arr l => 1 + jsizeL l
  | .obj o => 1 + jsizeO o
  | _ => 1

/-- Size of a list of JSON values. -/
def jsizeL : List Json → Nat
  | [] => 0
  | x :: xs => 1 + jsize x + jsizeL xs

/-- Size of the property list of a JSON object. -/
def jsizeO : List (String × Json) → Nat
  | [] => 0
  | kv :: xs => 1 + jsize kv.2 + jsizeO xs

end

/-- The whitespace set of JavaScript `String.prototype.trim` and of `\s`
in JS regular expressions (WhiteSpace ∪ LineTerminator code points). -/
def jsWhitespace (c : Char) : Bool :=
  let n := c.toNat
  n == 9 || n == 10 || n == 11 || n == 12 || n == 13 || n == 32 ||
  n == 160 || n == 0x1680 || (decide (0x2000 ≤ n) && decide (n ≤ 0x200A)) ||
  n == 0x2028 || n == 0x2029 || n == 0x202F || n == 0x205F || n == 0x3000 || n == 0xFEFF

/-- Drop the longest run of `p`-satisfying characters at the end of a list. -/
def dropTrailingWhile (p : Char → Bool) (l : List Char) : List Char :=
  (l.reverse.dropWhile p).reverse

/-- JavaScript `s.trim()` on the character list of `s`. -/
def trimChars (l : List Char) : List Char :=
  dropTrailingWhile jsWhitespace (l.dropWhile jsWhitespace)

/-- JavaScript `s.trim()`. -/
def jsTrim (s : String) : String := ⟨trimChars s.data⟩

/-- `RE_COMMENT = /^\s*(!|#)/` : the test whether a line is a comment. -/
def reComment (l : List Char) : Bool :=
  match l.dropWhile jsWhitespace with
  | c :: _ => c == '!' || c == '#'
  | [] => false

/-- A character allowed inside the capture of `RE_ADBLOCK_PREFIX`
(`[^\/\^]`: anything except a slash and a caret). -/
def adblockOk (c : Char) : Bool := !(c == '/') && !(c == '^')

/-- `RE_ADBLOCK_PREFIX = /^\|\|([^\/\^]+)\^?$/` : on a match, return the
capture group (the domain between `||` and the optional trailing `^`). -/
def matchAdblock (l : List Char) : Option (List Char) :=
  match l with
  | c1 :: c2 :: rest =>
    if c1 == '|' && c2 == '|' then
      if rest.isEmpty then none
      else if rest.getLast? == some '^' then
        let core := rest.dropLast
        if !core.isEmpty && core.all adblockOk then some core else none
      else if rest.all adblockOk then some rest else none
    else none
  | _ => none

/-- The character class `[*\^\/\?\$\+\(\)\[\]\{\}\|]` that routes a string
to the REGEX branch of the classifier. -/
def specialChars : List Char :=
  ['*', '^', '/', '?', '$', '+', '(', ')', '[', ']', '\x7b', '\x7d', '|']

/-- The metacharacter class `[.*+?^${}()|[\]\\]` of `escapeForRegex`. -/
def escRegexChars : List Char :=
  ['.', '*', '+', '?', '^', '$', '\x7b', '\x7d', '(', ')', '|', '[', ']', '\\']

/-- One step of `escapeForRegex`: prefix a metacharacter with a backslash. -/
def escChar (c : Char) : List Char :=
  if escRegexChars.contains c then ['\\', c] else [c]

/-- `escapeForRegex(s) = s.replace(/[.*+?^${}()|[\]\\]/g, "\\$&")`. -/
def escapeForRegex (l : List Char) : List Char := l.flatMap escChar

/-- JavaScript `String.prototype.replace` with a global two-character
literal pattern `a b`: scan left to right, replace each non-overlapping
occurrence of `a b` by `r`, and continue after the replacement. -/
def replacePair (a b : Char) (r : List Char) : List Char → List Char
  | [] => []
  | [c] => [c]
  | c :: c2 :: rest =>
    if c == a && c2 == b then r ++ replacePair a b r rest
    else c :: replacePair a b r (c2 :: rest)

/-- `\d` of JS regexes: an ASCII digit. -/
def isDigitChar (c : Char) : Bool :=
  decide (48 ≤ c.toNat) && decide (c.toNat ≤ 57)

/-- Consume `\d{1,3}` from the front (greedy, which is exact here since a
digit run is followed by a non-digit in any anchored match). -/
def chompNum (l : List Char) : Option (List Char) :=
  let ds := l.takeWhile isDigitChar
  if decide (1 ≤ ds.length) && decide (ds.length ≤ 3) then
    some (l.dropWhile isDigitChar)
  else none

/-- Consume `\.\d{1,3}` from the front. -/
def chompDotNum (l : List Char) : Option (List Char) :=
  match l with
  | c :: r => if c == '.' then chompNum r else none
  | [] => none

/-- Consume `\d{1,3}(?:\.\d{1,3}){3}` (a dotted quad) from the front. -/
def chompQuad (l : List Char) : Option (List Char) :=
  ((((chompNum l).bind chompDotNum).bind chompDotNum).bind chompDotNum)

/-- `RE_IP_CIDR = /^\d{1,3}(?:\.\d{1,3}){3}(?:\/\d{1,2})?$/`. -/
def reIpCidr (l : List Char) : Bool :=
  match chompQuad l with
  | none => false
  | some rest =>
    rest.isEmpty ||
    (match rest with
     | c :: ds => c == '/' && !ds.isEmpty && decide (ds.length ≤ 2) && ds.all isDigitChar
     | [] => false)

/-- `RE_IP_RANGE = /^\d{1,3}(?:\.\d{1,3}){3}-\d{1,3}(?:\.\d{1,3}){3}$/`. -/
def reIpRange (l : List Char) : Bool :=
  match chompQuad l with
  | some ('-' :: r2) =>
    (match chompQuad r2 with
     | some [] => true
     | _ => false)
  | _ => false

/-- ASCII letter, as in the `[a-zA-Z]` classes of the source regexes. -/
def isAlphaChar (c : Char) : Bool :=
  (decide (97 ≤ c.toNat) && decide (c.toNat ≤ 122)) ||
  (decide (65 ≤ c.toNat) && decide (c.toNat ≤ 90))

/-- A character of a domain label: `[a-zA-Z0-9\-]`. -/
def isLabelChar (c : Char) : Bool := isAlphaChar c || isDigitChar c || c == '-'

/-- Split a character list at every occurrence of `sep` (like
`String.prototype.split` with a single-character separator). -/
def splitOnChar (sep : Char) : List Char → List (List Char)
  | [] => [[]]
  | c :: rest =>
    let r := splitOnChar sep rest
    if c == sep then [] :: r
    else
      match r with
      | h :: t => (c :: h) :: t
      | [] => [[c]]

/-- The star-free part of `RE_DOMAIN`: `([a-zA-Z0-9\-]+\.)+[a-zA-Z]{2,63}`,
anchored on both sides.  Since labels cannot contain a dot, full-match
membership is equivalent to: splitting on dots yields at least two parts,
every part but the last is a non-empty label, and the last part is a
2- to 63-letter TLD. -/
def reDomainCore (l : List Char) : Bool :=
  let parts := splitOnChar '.' l
  decide (2 ≤ parts.length) &&
  (parts.dropLast.all fun p => !p.isEmpty && p.all isLabelChar) &&
  (match parts.getLast? with
   | some t => decide (2 ≤ t.length) && decide (t.length ≤ 63) && t.all isAlphaChar
   | none => false)

/-- `RE_DOMAIN = /^(?:\*\.?){0,1}([a-zA-Z0-9\-]+\.)+[a-zA-Z]{2,63}$/` :
an optional `*` or `*.` prefix followed by the core domain shape. -/
def reDomain (l : List Char) : Bool :=
  reDomainCore l ||
  (match l with
   | '*' :: r =>
     reDomainCore r ||
     (match r with
      | '.' :: r2 => reDomainCore r2
      | _ => false)
   | _ => false)

/-- Build the rule line `TYPE,CONTENT`. -/
def mkLine (t : String) (content : List Char) : String :=
  ⟨t.data ++ ',' :: content⟩

/-- The string branch of `toLoonLines` (`typeof entry === "string"`),
translated clause by clause from the source. -/
def toLoonLinesStr (s0 : String) : List String :=
  let s := trimChars s0.data
  if s.isEmpty then []
  else if reComment s then []
  else
    match matchAdblock s with
    | some core =>
      let domain := (trimChars core).dropWhile (fun c => c == '.')
      if domain.isEmpty then [] else [mkLine ("DOMAIN-SUFFIX") domain]
    | none =>
      if s.any (fun c => specialChars.contains c) then
        if (['|', '|'] : List Char).isPrefixOf s then
          let p := replacePair '\\' '^' []
            (replacePair '\\' '*' ['.', '*'] (escapeForRegex (s.drop 2)))
          [mkLine ("REGEX") ('.' :: '*' :: (p ++ ['.', '*']))]
        else
          [mkLine ("REGEX") (replacePair '\\' '*' ['.', '*'] (escapeForRegex s))]
      else if reIpCidr s then [mkLine ("IP-CIDR") s]
      else if reIpRange s then [mkLine ("REGEX") ('^' :: (escapeForRegex s ++ ['$']))]
      else if s.head? == some '.' then
        [mkLine ("DOMAIN-SUFFIX") (s.dropWhile (fun c => c == '.'))]
      else
        let s1 := s.dropWhile (fun c => c == '*' || c == '.')
        if reDomain s1 then [mkLine ("DOMAIN-SUFFIX") s1]
        else [mkLine ("REGEX") (escapeForRegex s)]

/-- The probe order for the content value `v` of an object candidate. -/
def preferKeys : List String :=
  [("payload"), ("value"), ("content"), ("pattern"), ("domain"), ("host"), ("rule")]

/-- The re-probe order used when `v` is still `null` after the first pass. -/
def fallbackKeys : List String := [("domain"), ("host"), ("pattern"), ("rule")]

/-- The probe order for the type hint `t` of an object candidate. -/
def typeKeys : List String := [("type"), ("rule_type"), ("kind")]

/-- The rule-ish keys of `flattenJson`'s heuristic. -/
def ruleKeysList : List String :=
  [("rule"), ("type"), ("value"), ("payload"), ("pattern"), ("domain"), ("content"), ("host")]

/-- `k in entry` followed by `entry[k]` on a JSON-decoded object: the value
of key `k`, if present. -/
def lookupKey (k : String) : List (String × Json) → Option Json
  | [] => none
  | kv :: rest => if kv.1 == k then some kv.2 else lookupKey k rest

/-- `for (const k of ks) { if (k in entry) { v = entry[k]; break; } }` :
the value of the first present key of `ks`. -/
def probeKeys (ks : List String) (kvs : List (String × Json)) : Option Json :=
  match ks with
  | [] => none
  | k :: rest =>
    match lookupKey k kvs with
    | some v => some v
    | none => probeKeys rest kvs

/-- Whether a probe result is `null` in the JavaScript sense of the
`v === null` tests: the variable was never assigned, or the present key's
value is JSON `null`. -/
def isNullOpt : Option Json → Bool
  | none => true
  | some Json.null => true
  | some _ => false

/-- The content-resolution of the object branch: probe `preferKeys`; if the
result is still `null`, re-probe `fallbackKeys`; a final `null` means the
object-level fallback fires (`none`). -/
def resolveV (kvs : List (String × Json)) : Option Json :=
  let v1 := probeKeys preferKeys kvs
  let v2 := if isNullOpt v1 then probeKeys fallbackKeys kvs else v1
  if isNullOpt v2 then none else v2

/-- ASCII lower-casing of one character (`String.prototype.toLowerCase`
restricted to the ASCII range, which is all the source compares against). -/
def lowerChar (c : Char) : Char :=
  if decide (65 ≤ c.toNat) && decide (c.toNat ≤ 90) then Char.ofNat (c.toNat + 32) else c

/-- ASCII `toLowerCase`. -/
def jsLower (s : String) : String := ⟨s.data.map lowerChar⟩

/-- The lowercase hex digit used by `JSON.stringify` control escapes. -/
def hexDigitChar (n : Nat) : Char :=
  if n < 10 then Char.ofNat (48 + n) else Char.ofNat (87 + n)

/-- `JSON.stringify` escaping of one character inside a string literal. -/
def jsonEscChar (c : Char) : List Char :=
  if c == '"' then ['\\', '"']
  else if c == '\\' then ['\\', '\\']
  else if c == '\n' then ['\\', 'n']
  else if c == '\r' then ['\\', 'r']
  else if c == '\t' then ['\\', 't']
  else if c == '\x08' then ['\\', 'b']
  else if c == '\x0c' then ['\\', 'f']
  else if c.toNat < 32 then
    ['\\', 'u', '0', '0', hexDigitChar (c.toNat / 16), hexDigitChar (c.toNat % 16)]
  else [c]

mutual

/-- `JSON.stringify(e, null, "")` : compact serialization, insertion order. -/
def stringify : Json → List Char
  | Json.null => ("null").data
  | Json.bool true => ("true").data
  | Json.bool false => ("false").data
  | Json.num i => (toString i).data
  | Json.str s => '"' :: (s.data.flatMap jsonEscChar ++ ['"'])
  | Json.arr l => '[' :: (stringifyItems l ++ [']'])
  | Json.obj kvs => '\x7b' :: (stringifyProps kvs ++ ['\x7d'])

/-- Comma-joined serializations of array elements. -/
def stringifyItems : List Json → List Char
  | [] => []
  | [x] => stringify x
  | x :: xs => stringify x ++ ',' :: stringifyItems xs

/-- Comma-joined `"key":value` serializations of object properties. -/
def stringifyProps : List (String × Json) → List Char
  | [] => []
  | [kv] => '"' :: (kv.1.data.flatMap jsonEscChar ++ ('"' :: ':' :: stringify kv.2))
  | kv :: rest =>
    ('"' :: (kv.1.data.flatMap jsonEscChar ++ ('"' :: ':' :: stringify kv.2)))
      ++ ',' :: stringifyProps rest

end

mutual

/-- JavaScript `String(v)` coercion: arrays join their elements with
commas (`null` elements joining as the empty string); objects print as
`[object Object]`. -/
def jsToString : Json → String
  | Json.null => ("null")
  | Json.bool true => ("true")
  | Json.bool false => ("false")
  | Json.num i => toString i
  | Json.str s => s
  | Json.arr l => ⟨joinShowElems l⟩
  | Json.obj _ => ("[object Object]")

/-- `Array.prototype.join(",")` over `String(·)` coercions; a `null`
element joins as the empty string. -/
def joinShowElems : List Json → List Char
  | [] => []
  | [Json.null] => []
  | [x] => (jsToString x).data
  | Json.null :: xs => ',' :: joinShowElems xs
  | x :: xs => (jsToString x).data ++ ',' :: joinShowElems xs

end

/-- The type-hint resolution of the object branch:
`for (const k of ["type","rule_type","kind"]) { if (k in entry) { t = String(entry[k]).toLowerCase(); break } }`. -/
def resolveT (kvs : List (String × Json)) : Option String :=
  (probeKeys typeKeys kvs).map fun tv => jsLower (jsToString tv)

/-- `hay.includes(sub)` for JavaScript strings. -/
def hasInfix (hay sub : List Char) : Bool :=
  if sub.isPrefixOf hay then true
  else
    match hay with
    | [] => false
    | _ :: t => hasInfix t sub

/-- `t.includes(sub)` on strings. -/
def includesStr (t sub : String) : Bool := hasInfix t.data sub.data

/-- The type-directed classification of the object branch, applied when a
type hint `t` is present: the first matching condition wins; `none` means
no hint condition matched and the string path is used instead. -/
def classifyWithHint (t : String) (s : String) : Option String :=
  if includesStr t ("domain") &&
      (includesStr t ("suffix") || t == ("suffix") || includesStr t ("domain-suffix")) then
    some (mkLine ("DOMAIN-SUFFIX") s.data)
  else if includesStr t ("domain") && (includesStr t ("keyword") || includesStr t ("key")) then
    some (mkLine ("DOMAIN-KEYWORD") s.data)
  else if includesStr t ("domain") then
    some (mkLine ("DOMAIN-SUFFIX") s.data)
  else if includesStr t ("ip") || includesStr t ("cidr") then
    some (mkLine ("IP-CIDR") s.data)
  else if includesStr t ("regex") || includesStr t ("re") then
    some (mkLine ("REGEX") s.data)
  else none

/-- The tail of the object branch once a non-array content value `v` is
resolved: coerce to a trimmed string, drop it when empty, apply the type
hint when present and truthy, otherwise classify the string. -/
def objTail (t? : Option String) (v : Json) : List String :=
  let s : String := ⟨trimChars (jsToString v).data⟩
  if s.data.isEmpty then []
  else
    match t? with
    | some t =>
      if t == ("") then toLoonLinesStr s
      else
        match classifyWithHint t s with
        | some line => [line]
        | none => toLoonLinesStr s
    | none => toLoonLinesStr s

/-- `toLoonLines(entry)` with an explicit fuel.  Strings use the string
branch; non-null non-object primitives produce nothing (`return lines`
at the bottom); arrays reach the object branch of the source
(`typeof [] === "object"`), find none of the probed keys and fall back to
the escaped JSON dump; objects resolve a content value and a type hint,
recurse element-wise when the content is an array, and otherwise classify
the coerced string. -/
def toLoonLinesF : Nat → Json → List String
  | 0, _ => []
  | n + 1, e =>
    match e with
    | Json.str s => toLoonLinesStr s
    | Json.arr l => [mkLine ("REGEX") (escapeForRegex (stringify (Json.arr l)))]
    | Json.obj kvs =>
      (match resolveV kvs with
       | none => [mkLine ("REGEX") (escapeForRegex (stringify (Json.obj kvs)))]
       | some (Json.arr elems) => elems.flatMap (toLoonLinesF n)
       | some v => objTail (resolveT kvs) v)
    | _ => []

/-- `toLoonLines(entry)` of the general variant. -/
def toLoonLines (e : Json) : List String := toLoonLinesF (jsize e + 1) e

mutual

/-- `flattenJson(obj)` of the general variant: null contributes nothing
(JSON has no `undefined`); arrays concatenate element-wise; an object with
a rule-ish key and at most 30 keys is one candidate, any other object is
flattened value-wise; other primitives contribute `String(obj)`. -/
def flattenJson : Json → List Json
  | Json.null => []
  | Json.arr l => flattenArr l
  | Json.obj kvs =>
    if (kvs.any fun kv => ruleKeysList.contains kv.1) && decide (kvs.length ≤ 30) then
      [Json.obj kvs]
    else flattenVals kvs
  | prim => [Json.str (jsToString prim)]

/-- Concatenated flattening of array elements. -/
def flattenArr : List Json → List Json
  | [] => []
  | x :: xs => flattenJson x ++ flattenArr xs

/-- Concatenated flattening of an object's values (`Object.values(obj)`). -/
def flattenVals : List (String × Json) → List Json
  | [] => []
  | kv :: rest => flattenJson kv.2 ++ flattenVals rest

end

/-- The deduplicating accumulator of `main`: a `seen` set plus an `out`
array in insertion order (`seen` is modelled as the list of seen lines). -/
def dedupeAux (seen : List String) : List String → List String
  | [] => []
  | l :: rest =>
    if l ∈ seen then dedupeAux seen rest
    else l :: dedupeAux (l :: seen) rest

/-- First-occurrence deduplication, as performed by `main` of the general
variant (and by the `Set` of the schema-driven variant). -/
def dedupe (ls : List String) : List String := dedupeAux [] ls

/-- `^[a-zA-Z]+:\/\/` removal of `cleanDomainCandidate`. -/
def stripProtocol (l : List Char) : List Char :=
  let letters := l.takeWhile isAlphaChar
  let rest := l.dropWhile isAlphaChar
  if !letters.isEmpty then
    match rest with
    | ':' :: '/' :: '/' :: r => r
    | _ => l
  else l

/-- `:\d+$` removal of `cleanDomainCandidate`. -/
def stripPort (l : List Char) : List Char :=
  let rds := l.reverse.takeWhile isDigitChar
  let rrest := l.reverse.dropWhile isDigitChar
  if !rds.isEmpty then
    match rrest with
    | ':' :: r => r.reverse
    | _ => l
  else l

/-- A leading/trailing character stripped by `/(^[\.-]+)|([\.-]+$)/g`. -/
def edgeChar (c : Char) : Bool := c == '.' || c == '-'

/-- A character of the validation class `[a-z0-9\.\-]` of
`cleanDomainCandidate`. -/
def validDomChar (c : Char) : Bool :=
  (decide (97 ≤ c.toNat) && decide (c.toNat ≤ 122)) || isDigitChar c || c == '.' || c == '-'

/-- The canonicalization pipeline of `cleanDomainCandidate` before the
validation guards: strip the protocol, truncate at the first `/`, `?` or
`#`, strip a trailing port, strip leading wildcards and dots, and
lower-case the result. -/
def preClean (s0 : List Char) : List Char :=
  let s1 := stripProtocol s0
  let s2 := s1.takeWhile fun c => !(c == '/' || c == '?' || c == '#')
  let s3 := stripPort s2
  let s4 :=
    match s3 with
    | '*' :: _ => (s3.dropWhile (fun c => c == '*')).dropWhile (fun c => c == '.')
    | _ => s3
  let s5 := s4.dropWhile (fun c => c == '.')
  s5.map lowerChar

/-- `cleanDomainCandidate(raw)` of the schema-driven variant, on the string
payload (the non-string and falsy cases of the source return `null` and
are handled by `cleanDomainCandidate` below). -/
def cleanStr (raw : String) : Option String :=
  let s0 := trimChars raw.data
  if s0.isEmpty then none
  else
    let s6 := preClean s0
    if s6.any (fun c => c == '/' || jsWhitespace c || c == '@') then none
    else if !s6.isEmpty && s6.all isDigitChar then none
    else if !(s6.contains '.') then none
    else if !(s6.all validDomChar) then none
    else
      let s7 := dropTrailingWhile edgeChar (s6.dropWhile edgeChar)
      if s7.isEmpty then none else some ⟨s7⟩

/-- `cleanDomainCandidate(raw)` on an arbitrary JSON value: non-strings
(and falsy values) return `null`. -/
def cleanDomainCandidate : Json → Option String
  | Json.str s => cleanStr s
  | _ => none

/-- One typed array of the schema-driven `main` loop: when the probed
property is an array, clean each string item and emit `TAG,cleaned`
(non-string items and rejected candidates are skipped). -/
def schemaLinesOfArr (tag : String) (v? : Option Json) : List String :=
  match v? with
  | some (Json.arr items) =>
    items.filterMap fun it =>
      match it with
      | Json.str s => (cleanStr s).map fun c => mkLine tag c.data
      | _ => none
  | _ => []

/-- The lines contributed by one element of `rules` in the schema-driven
variant: `domain` and `domain_suffix` arrays emit `DOMAIN-SUFFIX`,
`domain_keyword` emits `DOMAIN-KEYWORD`; non-object elements are skipped. -/
def schemaLinesOfRule (r : Json) : List String :=
  match r with
  | Json.obj kvs =>
    schemaLinesOfArr ("DOMAIN-SUFFIX") (lookupKey ("domain") kvs)
      ++ schemaLinesOfArr ("DOMAIN-SUFFIX") (lookupKey ("domain_suffix") kvs)
      ++ schemaLinesOfArr ("DOMAIN-KEYWORD") (lookupKey ("domain_keyword") kvs)
  | _ => []

/-- The rule lines collected by the schema-driven `main` from the fetched
document: `none` when `rules` is missing or not an array (the header-only
degraded mode). -/
def schemaCollect (j : Json) : Option (List String) :=
  match j with
  | Json.obj kvs =>
    (match lookupKey ("rules") kvs with
     | some (Json.arr rules) => some (rules.flatMap schemaLinesOfRule)
     | _ => none)
  | _ => none

/-! ### Basic lemmas about the embedding -/

/-- The closed enumeration of rule-type tags. -/
def ruleTypes : List String :=
  [("DOMAIN-SUFFIX"), ("DOMAIN-KEYWORD"), ("IP-CIDR"), ("REGEX")]

/-- A line is well-tagged when it starts with `TYPE,` for one of the four
rule types. -/
def hasRuleType (line : String) : Bool :=
  ruleTypes.any fun t => (t.data ++ [',']).isPrefixOf line.data

theorem isPrefixOf_self_append (a b : List Char) : a.isPrefixOf (a ++ b) = true := by
  induction a with
  | nil => cases b <;> rfl
  | cons c cs ih => simp [List.isPrefixOf, ih]

theorem mkLine_data (t : String) (c : List Char) :
    (mkLine t c).data = t.data ++ ',' :: c := rfl

theorem hasRuleType_mkLine {t : String} (c : List Char) (h : t ∈ ruleTypes) :
    hasRuleType (mkLine t c) = true := by
  unfold hasRuleType
  rw [List.any_eq_true]
  refine ⟨t, h, ?_⟩
  rw [mkLine_data, show t.data ++ ',' :: c = (t.data ++ [',']) ++ c by simp]
  exact isPrefixOf_self_append _ _

theorem jsize_pos (e : Json) : 1 ≤ jsize e := by
  cases e <;> simp [jsize]

theorem jsizeL_of_mem {e : Json} : ∀ {l : List Json}, e ∈ l → jsize e < 1 + jsizeL l := by
  intro l h
  induction l with
  | nil => cases h
  | cons x xs ih =>
    rcases List.mem_cons.mp h with rfl | hx
    · simp [jsizeL]; omega
    · have := ih hx
      simp [jsizeL]; omega

theorem jsizeO_of_lookup {k : String} :
    ∀ {kvs : List (String × Json)} {v : Json}, lookupKey k kvs = some v → jsize v ≤ jsizeO kvs := by
  intro kvs
  induction kvs with
  | nil => intro v h; cases h
  | cons kv rest ih =>
    intro v h
    unfold lookupKey at h
    by_cases hk : (kv.1 == k) = true
    · rw [if_pos hk] at h
      cases h
      simp [jsizeO]; omega
    · rw [if_neg hk] at h
      have := ih h
      simp [jsizeO]; omega

theorem probeKeys_jsize {v : Json} :
    ∀ {ks : List String} {kvs : List (String × Json)},
      probeKeys ks kvs = some v → jsize v ≤ jsizeO kvs := by
  intro ks
  induction ks with
  | nil => intro kvs h; cases h
  | cons k rest ih =>
    intro kvs h
    unfold probeKeys at h
    cases hk : lookupKey k kvs with
    | some w => rw [hk] at h; cases h; exact jsizeO_of_lookup hk
    | none => rw [hk] at h; exact ih h

theorem resolveV_jsize {kvs : List (String × Json)} {v : Json}
    (h : resolveV kvs = some v) : jsize v ≤ jsizeO kvs := by
  simp only [resolveV] at h
  split at h
  · split at h
    · cases h
    · exact probeKeys_jsize h
  · exact probeKeys_jsize h

theorem toLoonLinesF_mono :
    ∀ (n m : Nat) (e : Json), jsize e ≤ n → jsize e ≤ m → toLoonLinesF n e = toLoonLinesF m e := by
  intro n
  induction n with
  | zero => intro m e he _; have := jsize_pos e; omega
  | succ n ih =>
    intro m e he hm
    cases m with
    | zero => have := jsize_pos e; omega
    | succ m =>
      cases e with
      | str s => rfl
      | null => rfl
      | bool b => rfl
      | num i => rfl
      | arr l => rfl
      | obj kvs =>
        simp only [toLoonLinesF]
        cases hv : resolveV kvs with
        | none => rfl
        | some v =>
          cases v with
          | arr elems =>
            apply List.flatMap_congr
            intro x hx
            have h1 : jsize x < 1 + jsizeL elems := jsizeL_of_mem hx
            have h2 : jsize (Json.arr elems) ≤ jsizeO kvs := resolveV_jsize hv
            have h3 : jsize (Json.arr elems) = 1 + jsizeL elems := rfl
            have h4 : jsize (Json.obj kvs) = 1 + jsizeO kvs := rfl
            exact ih m x (by omega) (by omega)
          | null => rfl
          | bool b => rfl
          | num i => rfl
          | str s => rfl
          | obj o => rfl

theorem toLoonLines_str (s : String) : toLoonLines (Json.str s) = toLoonLinesStr s := rfl

theorem toLoonLines_null : toLoonLines Json.null = [] := rfl

theorem toLoonLines_bool (b : Bool) : toLoonLines (Json.bool b) = [] := rfl

theorem toLoonLines_num (i : Int) : toLoonLines (Json.num i) = [] := rfl

theorem toLoonLines_arr (l : List Json) :
    toLoonLines (Json.arr l) =
      [mkLine ("REGEX") (escapeForRegex (stringify (Json.arr l)))] := rfl

theorem toLoonLines_obj_none {kvs : List (String × Json)} (h : resolveV kvs = none) :
    toLoonLines (Json.obj kvs) =
      [mkLine ("REGEX") (escapeForRegex (stringify (Json.obj kvs)))] := by
  unfold toLoonLines
  simp only [toLoonLinesF, h]

theorem toLoonLines_obj_arr {kvs : List (String × Json)} {elems : List Json}
    (h : resolveV kvs = some (Json.arr elems)) :
    toLoonLines (Json.obj kvs) = elems.flatMap toLoonLines := by
  unfold toLoonLines
  simp only [toLoonLinesF, h]
  apply List.flatMap_congr
  intro x hx
  have h1 : jsize x < 1 + jsizeL elems := jsizeL_of_mem hx
  have h2 : jsize (Json.arr elems) ≤ jsizeO kvs := resolveV_jsize h
  have h3 : jsize (Json.arr elems) = 1 + jsizeL elems := rfl
  have h4 : jsize (Json.obj kvs) = 1 + jsizeO kvs := rfl
  exact toLoonLinesF_mono (jsize (Json.obj kvs)) (jsize x + 1) x (by omega) (by omega)

theorem toLoonLines_obj_some {kvs : List (String × Json)} {v : Json}
    (h : resolveV kvs = some v) (hv : ∀ elems, v ≠ Json.arr elems) :
    toLoonLines (Json.obj kvs) = objTail (resolveT kvs) v := by
  unfold toLoonLines
  cases v with
  | arr elems => exact absurd rfl (hv elems)
  | null => simp only [toLoonLinesF, h]
  | bool b => simp only [toLoonLinesF, h]
  | num i => simp only [toLoonLinesF, h]
  | str s => simp only [toLoonLinesF, h]
  | obj o => simp only [toLoonLinesF, h]

theorem toLoonLinesStr_hasType (s : String) :
    ∀ line ∈ toLoonLinesStr s, hasRuleType line = true := by
  intro line hline
  simp only [toLoonLinesStr] at hline
  repeat' split at hline
  all_goals
    first
    | (rw [List.mem_singleton] at hline; subst hline; exact hasRuleType_mkLine _ (by decide))
    | cases hline

theorem classifyWithHint_hasType {t s line : String}
    (h : classifyWithHint t s = some line) : hasRuleType line = true := by
  unfold classifyWithHint at h
  split_ifs at h <;> cases h <;> exact hasRuleType_mkLine _ (by decide)

theorem objTail_hasType (t? : Option String) (v : Json) :
    ∀ line ∈ objTail t? v, hasRuleType line = true := by
  intro line h
  simp only [objTail] at h
  repeat' split at h
  all_goals
    first
    | (rw [List.mem_singleton] at h; subst h;
       exact classifyWithHint_hasType (by assumption))
    | cases h
    | exact toLoonLinesStr_hasType _ line h

theorem toLoonLines_hasType_aux :
    ∀ (n : Nat) (e : Json), jsize e ≤ n → ∀ line ∈ toLoonLines e, hasRuleType line = true := by
  intro n
  induction n with
  | zero => intro e he; have := jsize_pos e; omega
  | succ n ih =>
    intro e he line hline
    cases e with
    | null => rw [toLoonLines_null] at hline; cases hline
    | bool b => rw [toLoonLines_bool] at hline; cases hline
    | num i => rw [toLoonLines_num] at hline; cases hline
    | str s => rw [toLoonLines_str] at hline; exact toLoonLinesStr_hasType s line hline
    | arr l =>
      rw [toLoonLines_arr, List.mem_singleton] at hline
      subst hline
      exact hasRuleType_mkLine _ (by decide)
    | obj kvs =>
      cases hv : resolveV kvs with
      | none =>
        rw [toLoonLines_obj_none hv, List.mem_singleton] at hline
        subst hline
        exact hasRuleType_mkLine _ (by decide)
      | some v =>
        cases v with
        | arr elems =>
          rw [toLoonLines_obj_arr hv] at hline
          rcases List.mem_flatMap.mp hline with ⟨x, hx, hlx⟩
          have h1 : jsize x < 1 + jsizeL elems := jsizeL_of_mem hx
          have h2 : jsize (Json.arr elems) ≤ jsizeO kvs := resolveV_jsize hv
          have h3 : jsize (Json.arr elems) = 1 + jsizeL elems := rfl
          have h4 : jsize (Json.obj kvs) = 1 + jsizeO kvs := rfl
          exact ih x (by omega) line hlx
        | null =>
          rw [toLoonLines_obj_some hv (fun _ h => Json.noConfusion h)] at hline
          exact objTail_hasType _ _ line hline
        | bool b =>
          rw [toLoonLines_obj_some hv (fun _ h => Json.noConfusion h)] at hline
          exact objTail_hasType _ _ line hline
        | num i =>
          rw [toLoonLines_obj_some hv (fun _ h => Json.noConfusion h)] at hline
          exact objTail_hasType _ _ line hline
        | str s =>
          rw [toLoonLines_obj_some hv (fun _ h => Json.noConfusion h)] at hline
          exact objTail_hasType _ _ line hline
        | obj o =>
          rw [toLoonLines_obj_some hv (fun _ h => Json.noConfusion h)] at hline
          exact objTail_hasType _ _ line hline

theorem toLoonLinesStr_ne_nil (s : String)
    (h1 : trimChars s.data ≠ [])
    (h2 : reComment (trimChars s.data) = false)
    (h3 : ∀ core, matchAdblock (trimChars s.data) = some core →
        (trimChars core).dropWhile (fun c => c == '.') ≠ []) :
    toLoonLinesStr s ≠ [] := by
  simp only [toLoonLinesStr]
  split
  · rename_i hemp
    exact absurd (List.isEmpty_iff.mp hemp) h1
  · split
    · rename_i hcom
      simp [h2] at hcom
    · split
      · rename_i core heq
        split
        · rename_i hdom
          exact absurd (List.isEmpty_iff.mp hdom) (h3 core heq)
        · simp
      · repeat' split
        all_goals simp

theorem flattenArr_eq (l : List Json) : flattenArr l = l.flatMap flattenJson := by
  induction l with
  | nil => rfl
  | cons x xs ih => simp [flattenArr, ih]

theorem flattenVals_eq (kvs : List (String × Json)) :
    flattenVals kvs = kvs.flatMap fun kv => flattenJson kv.2 := by
  induction kvs with
  | nil => rfl
  | cons kv rest ih => simp [flattenVals, ih]

theorem dedupeAux_mem (x : String) :
    ∀ (ls seen : List String), x ∈ dedupeAux seen ls ↔ (x ∈ ls ∧ x ∉ seen) := by
  intro ls
  induction ls with
  | nil => intro seen; simp [dedupeAux]
  | cons l rest ih =>
    intro seen
    simp only [dedupeAux]
    split
    · rename_i hc
      rw [ih]
      constructor
      · rintro ⟨hm, hs⟩
        exact ⟨List.mem_cons_of_mem _ hm, hs⟩
      · rintro ⟨hm, hs⟩
        rcases List.mem_cons.mp hm with rfl | hm2
        · exact absurd hc hs
        · exact ⟨hm2, hs⟩
    · rename_i hc
      simp only [List.mem_cons, ih]
      constructor
      · rintro (rfl | ⟨hm, hs⟩)
        · exact ⟨Or.inl rfl, hc⟩
        · exact ⟨Or.inr hm, fun hx => hs (Or.inr hx)⟩
      · rintro ⟨rfl | hm, hs⟩
        · exact Or.inl rfl
        · by_cases hxl : x = l
          · exact Or.inl hxl
          · exact Or.inr ⟨hm, by simp [List.mem_cons, hxl, hs]⟩

theorem dedupeAux_nodup : ∀ (ls seen : List String), (dedupeAux seen ls).Nodup := by
  intro ls
  induction ls with
  | nil => intro seen; simp [dedupeAux]
  | cons l rest ih =>
    intro seen
    simp only [dedupeAux]
    split
    · exact ih seen
    · rw [List.nodup_cons]
      refine ⟨fun hmem => ?_, ih (l :: seen)⟩
      exact ((dedupeAux_mem l rest (l :: seen)).mp hmem).2 (List.mem_cons_self _ _)

theorem dedupeAux_sublist : ∀ (ls seen : List String), (dedupeAux seen ls).Sublist ls := by
  intro ls
  induction ls with
  | nil => intro seen; simp [dedupeAux]
  | cons l rest ih =>
    intro seen
    simp only [dedupeAux]
    split
    · exact (ih seen).cons l
    · exact (ih (l :: seen)).cons₂ l

theorem dedupeAux_congr_seen :
    ∀ (ls s1 s2 : List String), (∀ y, y ∈ s1 ↔ y ∈ s2) → dedupeAux s1 ls = dedupeAux s2 ls := by
  intro ls
  induction ls with
  | nil => intro s1 s2 _; rfl
  | cons l rest ih =>
    intro s1 s2 hiff
    simp only [dedupeAux]
    by_cases hc : l ∈ s1
    · rw [if_pos hc, if_pos ((hiff l).mp hc)]
      exact ih s1 s2 hiff
    · rw [if_neg hc, if_neg (fun h => hc ((hiff l).mpr h))]
      refine congrArg (l :: ·) (ih _ _ fun y => ?_)
      simp only [List.mem_cons]
      exact or_congr Iff.rfl (hiff y)

theorem dedupeAux_seen_filter :
    ∀ (ls : List String) (seen : List String) (x : String),
      dedupeAux (x :: seen) ls = dedupeAux seen (ls.filter fun y => decide (y ≠ x)) := by
  intro ls
  induction ls with
  | nil => intro seen x; rfl
  | cons l rest ih =>
    intro seen x
    simp only [dedupeAux, List.filter_cons]
    by_cases hlx : l = x
    · subst hlx
      rw [if_pos (List.mem_cons_self _ _), if_neg (by simp)]
      exact ih seen l
    · by_cases hls : l ∈ seen
      · rw [if_pos (List.mem_cons_of_mem x hls), if_pos (by simp [hlx])]
        simp only [dedupeAux]
        rw [if_pos hls]
        exact ih seen x
      · rw [if_neg (by simp [hlx, hls]), if_pos (by simp [hlx])]
        simp only [dedupeAux]
        rw [if_neg hls]
        refine congrArg (l :: ·) ?_
        rw [dedupeAux_congr_seen rest (l :: x :: seen) (x :: l :: seen) (fun y => by
          simp only [List.mem_cons]
          tauto)]
        exact ih (l :: seen) x

theorem dropWhile_eq_self_of_not {p : Char → Bool} :
    ∀ {l : List Char}, (∀ c ∈ l, p c = false) → l.dropWhile p = l := by
  intro l h
  cases l with
  | nil => rfl
  | cons a t => rw [List.dropWhile_cons, if_neg (by simp [h a (List.mem_cons_self a t)])]

theorem trimChars_eq_self {l : List Char} (h : ∀ c ∈ l, jsWhitespace c = false) :
    trimChars l = l := by
  unfold trimChars dropTrailingWhile
  rw [dropWhile_eq_self_of_not h,
    dropWhile_eq_self_of_not (fun c hc => h c (List.mem_reverse.mp hc)),
    List.reverse_reverse]

theorem chompNum_spec {l r : List Char} (h : chompNum l = some r) :
    ∃ ds, l = ds ++ r ∧ ds ≠ [] ∧ ∀ c ∈ ds, isDigitChar c = true := by
  simp only [chompNum] at h
  split at h
  · rename_i hcond
    cases h
    refine ⟨l.takeWhile isDigitChar, (List.takeWhile_append_dropWhile _ _).symm, ?_,
      fun c hc => List.mem_takeWhile_imp hc⟩
    intro hnil
    rw [hnil] at hcond
    simp at hcond
  · cases h

theorem chompDotNum_spec {l r : List Char} (h : chompDotNum l = some r) :
    ∃ ds, l = ds ++ r ∧ ds ≠ [] ∧ ∀ c ∈ ds, isDigitChar c = true ∨ c = '.' := by
  cases l with
  | nil => cases h
  | cons c tail =>
    simp only [chompDotNum] at h
    split at h
    · rename_i hc
      obtain ⟨ds, rfl, hne, hds⟩ := chompNum_spec h
      refine ⟨c :: ds, rfl, by simp, ?_⟩
      intro x hx
      rcases List.mem_cons.mp hx with rfl | hx2
      · exact Or.inr (by simpa using hc)
      · exact Or.inl (hds x hx2)
    · cases h

theorem chompQuad_spec {l r : List Char} (h : chompQuad l = some r) :
    ∃ pre, l = pre ++ r ∧ pre ≠ [] ∧ (∀ c ∈ pre, isDigitChar c = true ∨ c = '.') ∧
      (∀ c, pre.head? = some c → isDigitChar c = true) := by
  unfold chompQuad at h
  cases h1 : chompNum l with
  | none => rw [h1] at h; cases h
  | some r1 =>
    rw [h1] at h
    simp only [Option.some_bind] at h
    cases h2 : chompDotNum r1 with
    | none => rw [h2] at h; cases h
    | some r2 =>
      rw [h2] at h
      simp only [Option.some_bind] at h
      cases h3 : chompDotNum r2 with
      | none => rw [h3] at h; cases h
      | some r3 =>
        rw [h3] at h
        simp only [Option.some_bind] at h
        cases h4 : chompDotNum r3 with
        | none => rw [h4] at h; cases h
        | some r4 =>
          rw [h4] at h
          cases h
          obtain ⟨d1, rfl, hne1, hd1⟩ := chompNum_spec h1
          obtain ⟨d2, rfl, hne2, hd2⟩ := chompDotNum_spec h2
          obtain ⟨d3, rfl, hne3, hd3⟩ := chompDotNum_spec h3
          obtain ⟨d4, rfl, hne4, hd4⟩ := chompDotNum_spec h4
          refine ⟨d1 ++ (d2 ++ (d3 ++ d4)), by simp, by simp [hne1], ?_, ?_⟩
          · intro c hc
            rcases List.mem_append.mp hc with hc | hc
            · exact Or.inl (hd1 c hc)
            rcases List.mem_append.mp hc with hc | hc
            · exact hd2 c hc
            rcases List.mem_append.mp hc with hc | hc
            · exact hd3 c hc
            · exact hd4 c hc
          · intro c hc
            rw [List.head?_append] at hc
            cases hp : d1.head? with
            | none => rw [List.head?_eq_none_iff] at hp; exact absurd hp hne1
            | some c0 =>
              rw [hp] at hc
              cases hc
              exact hd1 c (List.mem_of_mem_head? hp)

theorem reIpCidr_chars {l : List Char} (h : reIpCidr l = true) :
    l ≠ [] ∧ (∀ c, l.head? = some c → isDigitChar c = true) ∧
      (∀ c ∈ l, isDigitChar c = true ∨ c = '.' ∨ c = '/') := by
  unfold reIpCidr at h
  cases hq : chompQuad l with
  | none => rw [hq] at h; cases h
  | some rest =>
    rw [hq] at h
    obtain ⟨pre, heq, hne, hmem, hhead⟩ := chompQuad_spec hq
    subst heq
    refine ⟨by simp [hne], ?_, ?_⟩
    · intro c hc
      rw [List.head?_append] at hc
      cases hp : pre.head? with
      | none => rw [List.head?_eq_none_iff] at hp; exact absurd hp hne
      | some c0 =>
        rw [hp] at hc
        cases hc
        exact hhead c hp
    · intro c hc
      rcases List.mem_append.mp hc with hin | hin
      · rcases hmem c hin with hd | hd
        · exact Or.inl hd
        · exact Or.inr (Or.inl hd)
      · cases rest with
        | nil => cases hin
        | cons c0 ds =>
          simp only [List.isEmpty_cons, Bool.false_or] at h
          have hsplit := h
          rw [Bool.and_eq_true, Bool.and_eq_true, Bool.and_eq_true] at hsplit
          obtain ⟨⟨⟨hc0, _⟩, _⟩, hds⟩ := hsplit
          rcases List.mem_cons.mp hin with rfl | hin2
          · exact Or.inr (Or.inr (by simpa using hc0))
          · have := (List.all_eq_true.mp hds) c hin2
            exact Or.inl this

theorem not_ws_of_range {c : Char} (h1 : 33 ≤ c.toNat) (h2 : c.toNat ≤ 126) :
    jsWhitespace c = false := by
  unfold jsWhitespace
  simp only [Bool.or_eq_false_iff, Bool.and_eq_false_iff, beq_eq_false_iff_ne, ne_eq,
    decide_eq_false_iff_not, not_le]
  omega

theorem cidr_char_range {c : Char} (h : isDigitChar c = true ∨ c = '.' ∨ c = '/') :
    46 ≤ c.toNat ∧ c.toNat ≤ 57 := by
  rcases h with h | rfl | rfl
  · simp only [isDigitChar, Bool.and_eq_true, decide_eq_true_eq] at h
    omega
  · decide
  · decide

theorem reComment_cons_false {c : Char} {t : List Char} (hws : jsWhitespace c = false)
    (h1 : (c == '!') = false) (h2 : (c == '#') = false) : reComment (c :: t) = false := by
  unfold reComment
  rw [List.dropWhile_cons, if_neg (by simp [hws])]
  simp [h1, h2]

theorem matchAdblock_cons_false {c : Char} {t : List Char} (h : (c == '|') = false) :
    matchAdblock (c :: t) = none := by
  cases t with
  | nil => rfl
  | cons c2 t2 =>
    simp only [matchAdblock]
    rw [if_neg (by simp [h])]

theorem pipes_isPrefixOf_false {c : Char} {t : List Char} (h : (c == '|') = false) :
    (['|', '|'] : List Char).isPrefixOf (c :: t) = false := by
  have h2 : ('|' == c) = false := by
    rw [beq_eq_false_iff_ne] at h ⊢
    exact fun he => h he.symm
  simp [List.isPrefixOf, h2]

theorem star_not_mem_escapeForRegex {l : List Char} (h : '*' ∉ l) :
    '*' ∉ escapeForRegex l := by
  intro hmem
  rcases List.mem_flatMap.mp hmem with ⟨c, hc, hcc⟩
  unfold escChar at hcc
  split at hcc
  · rcases List.mem_cons.mp hcc with he | he
    · exact absurd he (by decide)
    · rw [List.mem_singleton] at he
      exact h (he ▸ hc)
  · rw [List.mem_singleton] at hcc
    exact h (hcc ▸ hc)

theorem replacePair_not_mem {a b : Char} {r : List Char} :
    ∀ {l : List Char}, b ∉ l → replacePair a b r l = l
  | [], _ => rfl
  | [c], _ => rfl
  | c :: c2 :: rest, h => by
    have hc2 : (c2 == b) = false := by
      rw [beq_eq_false_iff_ne]
      intro he
      exact h (by simp [he])
    simp only [replacePair]
    rw [if_neg (by simp [hc2])]
    exact congrArg (c :: ·)
      (replacePair_not_mem fun hm => h (List.mem_cons_of_mem _ hm))

theorem contains_special_false {c : Char}
    (h : 46 ≤ c.toNat ∧ c.toNat ≤ 57) (hs : c ≠ '/') :
    specialChars.contains c = false := by
  rw [Bool.eq_false_iff]
  intro hmem
  have hm : c ∈ specialChars := by
    have h2 : specialChars.elem c = true := hmem
    exact List.elem_iff.mp h2
  fin_cases hm <;> revert h hs <;> decide

theorem cidr_classification (s : String) (h : reIpCidr s.data = true) :
    ('/' ∈ s.data → toLoonLinesStr s = [mkLine ("REGEX") (escapeForRegex s.data)]) ∧
    ('/' ∉ s.data → toLoonLinesStr s = [mkLine ("IP-CIDR") s.data]) := by
  obtain ⟨hne, hhead, hmem⟩ := reIpCidr_chars h
  have hrange : ∀ c ∈ s.data, 46 ≤ c.toNat ∧ c.toNat ≤ 57 :=
    fun c hc => cidr_char_range (hmem c hc)
  have htrim : trimChars s.data = s.data :=
    trimChars_eq_self fun c hc =>
      not_ws_of_range (by have := hrange c hc; omega) (by have := hrange c hc; omega)
  obtain ⟨c0, t0, hcons⟩ : ∃ c0 t0, s.data = c0 :: t0 := by
    cases hd : s.data with
    | nil => exact absurd hd hne
    | cons a b => exact ⟨a, b, rfl⟩
  rw [hcons] at htrim
  have hr0 : 46 ≤ c0.toNat ∧ c0.toNat ≤ 57 :=
    hrange c0 (by rw [hcons]; exact List.mem_cons_self _ _)
  have hws : jsWhitespace c0 = false := not_ws_of_range (by omega) (by omega)
  have hexcl : (c0 == '!') = false := by
    rw [beq_eq_false_iff_ne]
    intro he
    rw [he] at hr0
    exact absurd hr0 (by decide)
  have hhash : (c0 == '#') = false := by
    rw [beq_eq_false_iff_ne]
    intro he
    rw [he] at hr0
    exact absurd hr0 (by decide)
  have hpipe : (c0 == '|') = false := by
    rw [beq_eq_false_iff_ne]
    intro he
    rw [he] at hr0
    exact absurd hr0 (by decide)
  constructor
  · intro hslash
    have hspec : ((c0 :: t0).any fun c => specialChars.contains c) = true := by
      rw [List.any_eq_true]
      exact ⟨'/', by rw [← hcons]; exact hslash, by decide⟩
    have hstarl : '*' ∉ (c0 :: t0) := by
      intro hm
      have := hrange '*' (by rw [hcons]; exact hm)
      exact absurd this (by decide)
    have hstar : '*' ∉ escapeForRegex (c0 :: t0) := star_not_mem_escapeForRegex hstarl
    simp [toLoonLinesStr, hcons, htrim, reComment_cons_false hws hexcl hhash,
      matchAdblock_cons_false hpipe, hspec, pipes_isPrefixOf_false hpipe,
      replacePair_not_mem hstar]
    intro hc0 hall
    exfalso
    rw [hcons] at hslash
    rcases List.mem_cons.mp hslash with he | hm
    · rw [← he] at hc0
      exact hc0 (by decide)
    · exact hall '/' hm (by decide)
  · intro hslash
    have hspec : ((c0 :: t0).any fun c => specialChars.contains c) = false := by
      rw [List.any_eq_false]
      intro c hc
      have hcs : c ∈ s.data := by rw [hcons]; exact hc
      have hr := hrange c hcs
      have hcd : c ≠ '/' := fun he => hslash (he ▸ hcs)
      rw [contains_special_false hr hcd]
      simp
    have hcidr : reIpCidr (c0 :: t0) = true := by rw [← hcons]; exact h
    simp [toLoonLinesStr, hcons, htrim, reComment_cons_false hws hexcl hhash,
      matchAdblock_cons_false hpipe, hspec, hcidr]
    intro hcontra
    exfalso
    rcases hcontra with hc0m | ⟨x, hx, hxm⟩
    · have hc0d : c0 ≠ '/' := fun he =>
        hslash (by rw [hcons]; exact he ▸ List.mem_cons_self _ _)
      have h2 : specialChars.contains c0 = true := List.elem_iff.mpr hc0m
      rw [contains_special_false hr0 hc0d] at h2
      cases h2
    · have hxs : x ∈ s.data := by rw [hcons]; exact List.mem_cons_of_mem _ hx
      have hxd : x ≠ '/' := fun he => hslash (he ▸ hxs)
      have h2 : specialChars.contains x = true := List.elem_iff.mpr hxm
      rw [contains_special_false (hrange x hxs) hxd] at h2
      cases h2

theorem adblock_classification (s : String) (core : List Char)
    (h : matchAdblock (trimChars s.data) = some core) :
    toLoonLinesStr s =
      (if (trimChars core).dropWhile (fun c => c == '.') = [] then []
       else [mkLine ("DOMAIN-SUFFIX") ((trimChars core).dropWhile (fun c => c == '.'))]) := by
  obtain ⟨c1, t1, hcons⟩ : ∃ c1 t1, trimChars s.data = c1 :: t1 := by
    cases hd : trimChars s.data with
    | nil => rw [hd] at h; cases h
    | cons a b => exact ⟨a, b, rfl⟩
  rw [hcons] at h
  have hc1 : c1 = '|' := by
    cases t1 with
    | nil => cases h
    | cons c2 t2 =>
      by_cases hb : (c1 == '|' && c2 == '|') = true
      · have hb2 : c1 = '|' ∧ c2 = '|' := by simpa using hb
        exact hb2.1
      · rw [show matchAdblock (c1 :: c2 :: t2) = none from by
          simp only [matchAdblock]; rw [if_neg hb]] at h
        cases h
  subst hc1
  simp only [toLoonLinesStr, hcons, List.isEmpty_cons,
    @reComment_cons_false '|' t1 (by decide) (by decide) (by decide), h]
  simp [List.isEmpty_iff]

theorem probeKeys_none {kvs : List (String × Json)} :
    ∀ {ks : List String}, (∀ k ∈ ks, lookupKey k kvs = none) → probeKeys ks kvs = none := by
  intro ks
  induction ks with
  | nil => intro _; rfl
  | cons k rest ih =>
    intro h
    unfold probeKeys
    rw [h k (List.mem_cons_self _ _)]
    exact ih fun k2 hk2 => h k2 (List.mem_cons_of_mem _ hk2)

theorem head?_dropWhile_not {p : Char → Bool} :
    ∀ {l : List Char} {c : Char}, (l.dropWhile p).head? = some c → p c = false := by
  intro l
  induction l with
  | nil => intro c h; cases h
  | cons a t ih =>
    intro c h
    rw [List.dropWhile_cons] at h
    split at h
    · exact ih h
    · rename_i hp
      cases h
      simpa using hp

theorem mem_dropTrailingWhile {p : Char → Bool} {l : List Char} {x : Char}
    (h : x ∈ dropTrailingWhile p l) : x ∈ l := by
  unfold dropTrailingWhile at h
  rw [List.mem_reverse] at h
  exact List.mem_reverse.mp ((List.dropWhile_sublist p).subset h)

theorem getLast?_dropTrailingWhile_not {p : Char → Bool} {l : List Char} {c : Char}
    (h : (dropTrailingWhile p l).getLast? = some c) : p c = false := by
  unfold dropTrailingWhile at h
  rw [List.getLast?_reverse] at h
  exact head?_dropWhile_not h

theorem dropTrailingWhile_append (p : Char → Bool) (l : List Char) :
    l = dropTrailingWhile p l ++ (l.reverse.takeWhile p).reverse := by
  unfold dropTrailingWhile
  conv_lhs => rw [← List.reverse_reverse l, ← List.takeWhile_append_dropWhile p l.reverse]
  rw [List.reverse_append]

theorem head?_dropTrailingWhile {p : Char → Bool} {l : List Char}
    (h : dropTrailingWhile p l ≠ []) :
    (dropTrailingWhile p l).head? = l.head? := by
  conv_rhs => rw [dropTrailingWhile_append p l]
  cases hd : dropTrailingWhile p l with
  | nil => exact absurd hd h
  | cons a t => simp

theorem edgeStrip_spec (m : List Char) (hall : ∀ c ∈ m, validDomChar c = true)
    (hne : dropTrailingWhile edgeChar (m.dropWhile edgeChar) ≠ []) :
    dropTrailingWhile edgeChar (m.dropWhile edgeChar) ≠ [] ∧
    (∀ c ∈ dropTrailingWhile edgeChar (m.dropWhile edgeChar), validDomChar c = true) ∧
    (∀ c, (dropTrailingWhile edgeChar (m.dropWhile edgeChar)).head? = some c →
      edgeChar c = false) ∧
    (∀ c, (dropTrailingWhile edgeChar (m.dropWhile edgeChar)).getLast? = some c →
      edgeChar c = false) := by
  refine ⟨hne, ?_, ?_, fun c hc => getLast?_dropTrailingWhile_not hc⟩
  · intro c hc
    exact hall c ((List.dropWhile_sublist edgeChar).subset (mem_dropTrailingWhile hc))
  · intro c hc
    rw [head?_dropTrailingWhile hne] at hc
    exact head?_dropWhile_not hc

theorem cleanStr_spec {raw s : String} (h : cleanStr raw = some s) :
    s.data ≠ [] ∧ (∀ c ∈ s.data, validDomChar c = true) ∧
    (∀ c, s.data.head? = some c → edgeChar c = false) ∧
    (∀ c, s.data.getLast? = some c → edgeChar c = false) := by
  simp only [cleanStr] at h
  by_cases h0 : (trimChars raw.data).isEmpty = true
  · rw [if_pos h0] at h; cases h
  rw [if_neg h0] at h
  by_cases h1 : ((preClean (trimChars raw.data)).any
      fun c => c == '/' || jsWhitespace c || c == '@') = true
  · rw [if_pos h1] at h; cases h
  rw [if_neg h1] at h
  by_cases h2 : (!(preClean (trimChars raw.data)).isEmpty &&
      (preClean (trimChars raw.data)).all isDigitChar) = true
  · rw [if_pos h2] at h; cases h
  rw [if_neg h2] at h
  by_cases h3 : (!(preClean (trimChars raw.data)).contains '.') = true
  · rw [if_pos h3] at h; cases h
  rw [if_neg h3] at h
  by_cases h4 : (!(preClean (trimChars raw.data)).all validDomChar) = true
  · rw [if_pos h4] at h; cases h
  rw [if_neg h4] at h
  by_cases h5 : (dropTrailingWhile edgeChar
      ((preClean (trimChars raw.data)).dropWhile edgeChar)).isEmpty = true
  · rw [if_pos h5] at h; cases h
  rw [if_neg h5] at h
  cases h
  have hvalid : (preClean (trimChars raw.data)).all validDomChar = true := by
    simpa using h4
  refine edgeStrip_spec _ (List.all_eq_true.mp hvalid) ?_
  simpa [List.isEmpty_iff] using h5

theorem schemaRule_domain_mem {items : List Json} {s c : String}
    (hmem : Json.str s ∈ items) (hclean : cleanStr s = some c) :
    mkLine ("DOMAIN-SUFFIX") c.data ∈
      schemaLinesOfRule (Json.obj [(("domain"), Json.arr items)]) := by
  unfold schemaLinesOfRule
  apply List.mem_append_left
  apply List.mem_append_left
  rw [show lookupKey ("domain") [(("domain"), Json.arr items)] = some (Json.arr items) from rfl]
  unfold schemaLinesOfArr
  rw [List.mem_filterMap]
  exact ⟨Json.str s, hmem, by simp [hclean]⟩

/-! ### The claims -/

/-- The CONTENT part of a rule line: the text after the first comma. -/
def lineContent (line : String) : String :=
  ⟨(line.data.dropWhile fun c => !(c == ',')).drop 1⟩

/-- The content resolution as claim C4 words it: probe `preferKeys` and
take the first present key's value; only if none of those keys is present
is the fallback re-probe performed.  (This deliberately follows the
claim's words, to be compared with `resolveV`, which follows the source.) -/
def resolveVSpecC4 (kvs : List (String × Json)) : Option Json :=
  match probeKeys preferKeys kvs with
  | some v => some v
  | none => probeKeys fallbackKeys kvs

/-- Claim C1 counterexample: the input string `192.168.1.0/24` (an IPv4
CIDR with an explicit slash-prefix) does NOT yield `IP-CIDR,...`: the `/`
routes it into the REGEX branch first, yielding an escaped-literal REGEX
line. -/
theorem c1_counterexample :
    toLoonLines (Json.str ("192.168.1.0/24")) = [("REGEX,192\\.168\\.1\\.0/24")]
    ∧ toLoonLines (Json.str ("192.168.1.0/24")) ≠ [("IP-CIDR,192.168.1.0/24")] :=
  ⟨by decide, by decide⟩

/-- Claim C1 (amended): a trimmed candidate matching `RE_IP_CIDR` WITH an
explicit slash contains `/`, which is in the special-character class, so
the classifier emits exactly the single line `REGEX,<escaped s>`; the
`IP-CIDR,<s>` line is emitted exactly for the slash-free (bare dotted
quad) matches. -/
theorem c1_cidr_classification (s : String) (h : reIpCidr s.data = true) :
    ('/' ∈ s.data → toLoonLinesStr s = [mkLine ("REGEX") (escapeForRegex s.data)]) ∧
    ('/' ∉ s.data → toLoonLinesStr s = [mkLine ("IP-CIDR") s.data]) :=
  cidr_classification s h

/-- Claim C1 witness: the amended claim at `192.168.1.0/24` and `10.0.0.1`. -/
theorem c1_cidr_classification_witness :
    toLoonLinesStr ("192.168.1.0/24") = [("REGEX,192\\.168\\.1\\.0/24")]
    ∧ toLoonLinesStr ("10.0.0.1") = [("IP-CIDR,10.0.0.1")] :=
  ⟨((c1_cidr_classification ("192.168.1.0/24") (by decide)).1 (by decide)).trans (by decide),
   ((c1_cidr_classification ("10.0.0.1") (by decide)).2 (by decide)).trans (by decide)⟩

/-- Claim C2 counterexample: `||.^` is non-empty after trimming and not a
comment, yet the classifier emits no line: the adblock capture `.` strips
to the empty domain and the branch returns an empty list. -/
theorem c2_counterexample :
    toLoonLines (Json.str ("||.^")) = []
    ∧ jsTrim ("||.^") = ("||.^")
    ∧ reComment (("||.^") : String).data = false :=
  ⟨by decide, by decide, by decide⟩

/-- Claim C2 (amended): every string whose trim is non-empty, which is not
a comment, and which is not an adblock anchor whose captured domain strips
to nothing, yields at least one output line. -/
theorem c2_nonempty_output (s : String)
    (h1 : trimChars s.data ≠ [])
    (h2 : reComment (trimChars s.data) = false)
    (h3 : ∀ core, matchAdblock (trimChars s.data) = some core →
        (trimChars core).dropWhile (fun c => c == '.') ≠ []) :
    toLoonLinesStr s ≠ [] :=
  toLoonLinesStr_ne_nil s h1 h2 h3

/-- Claim C2 witness: the amended claim at the input `abc`. -/
theorem c2_nonempty_output_witness : toLoonLinesStr ("abc") ≠ [] :=
  c2_nonempty_output ("abc") (by decide) (by decide)
    (fun core hc => by
      rw [show matchAdblock (trimChars (("abc") : String).data) = none from by decide] at hc
      cases hc)

/-- Claim C3 counterexample: the input `.` yields the line
`DOMAIN-SUFFIX,` with EMPTY content (the startsWith-dot branch has no
emptiness guard), and the input `a\nb*` yields a REGEX line with an
embedded newline. -/
theorem c3_counterexample :
    (toLoonLines (Json.str (".")) = [("DOMAIN-SUFFIX,")]
      ∧ lineContent ("DOMAIN-SUFFIX,") = (""))
    ∧ (toLoonLines (Json.str ("a\nb*")) = [("REGEX,a\nb.*")]
      ∧ '\n' ∈ (("REGEX,a\nb.*") : String).data) :=
  ⟨⟨by decide, by decide⟩, ⟨by decide, by decide⟩⟩

/-- Claim C3 (amended): the part of the invariant that holds: every line
emitted by the classifier, on any input candidate, starts with `TYPE,` for
one of DOMAIN-SUFFIX, DOMAIN-KEYWORD, IP-CIDR, REGEX.  (CONTENT can be
empty and can embed a newline, per the counterexample.) -/
theorem c3_type_tag_invariant (e : Json) (line : String) (h : line ∈ toLoonLines e) :
    hasRuleType line = true :=
  toLoonLines_hasType_aux (jsize e) e le_rfl line h

/-- Claim C3 witness: a concretely emitted line carries a valid tag. -/
theorem c3_type_tag_invariant_witness :
    hasRuleType ("DOMAIN-SUFFIX,ads.example.com") = true :=
  c3_type_tag_invariant (Json.str ("||ads.example.com^"))
    ("DOMAIN-SUFFIX,ads.example.com") (by decide)

/-- Claim C4 counterexample: in `{"payload": null, "domain": "ads.example.com"}`
the key `payload` IS present, yet the fallback re-probe fires (because the
resolved value is `null`) and resolves `domain`; the claim's
presence-only resolution (`resolveVSpecC4`) would instead stop at
`payload` with value `null`. -/
theorem c4_counterexample :
    resolveV [(("payload"), Json.null), (("domain"), Json.str ("ads.example.com"))]
        = some (Json.str ("ads.example.com"))
    ∧ resolveVSpecC4 [(("payload"), Json.null), (("domain"), Json.str ("ads.example.com"))]
        = some Json.null
    ∧ resolveV [(("payload"), Json.null), (("domain"), Json.str ("ads.example.com"))]
        ≠ resolveVSpecC4 [(("payload"), Json.null), (("domain"), Json.str ("ads.example.com"))]
    ∧ toLoonLines
        (Json.obj [(("payload"), Json.null), (("domain"), Json.str ("ads.example.com"))])
        = [("DOMAIN-SUFFIX,ads.example.com")] :=
  ⟨rfl, rfl, fun hcontra => Json.noConfusion (Option.some.inj hcontra), by decide⟩

/-- Claim C4 (amended): the first present key of
`payload,value,content,pattern,domain,host,rule` wins when its value is
non-null; the fallback re-probe over `domain,host,pattern,rule` is
performed whenever the first probe resolved to `null` (no key present OR a
present key holding JSON null), and the object-level REGEX fallback fires
exactly when both probes resolve to `null`. -/
theorem c4_resolution (kvs : List (String × Json)) :
    (resolveV kvs = none ↔
      (isNullOpt (probeKeys preferKeys kvs) = true ∧
        isNullOpt (probeKeys fallbackKeys kvs) = true))
    ∧ (∀ v, probeKeys preferKeys kvs = some v → v ≠ Json.null → resolveV kvs = some v)
    ∧ (resolveV kvs = none →
        toLoonLines (Json.obj kvs) =
          [mkLine ("REGEX") (escapeForRegex (stringify (Json.obj kvs)))]) := by
  refine ⟨?_, ?_, fun h => toLoonLines_obj_none h⟩
  · simp only [resolveV]
    by_cases h1 : isNullOpt (probeKeys preferKeys kvs) = true
    · rw [if_pos h1]
      by_cases h2 : isNullOpt (probeKeys fallbackKeys kvs) = true
      · rw [if_pos h2]
        simp [h1, h2]
      · rw [if_neg h2]
        cases hp : probeKeys fallbackKeys kvs with
        | none => rw [hp] at h2; exact absurd rfl h2
        | some w =>
          rw [hp] at h2
          have h2f : isNullOpt (some w) = false := by simpa using h2
          simp [h1, hp, h2f]
    · rw [if_neg h1, if_neg h1]
      cases hp : probeKeys preferKeys kvs with
      | none => rw [hp] at h1; exact absurd rfl h1
      | some w =>
        rw [hp] at h1
        have h1f : isNullOpt (some w) = false := by simpa using h1
        simp [hp, h1f]
  · intro v hv hnv
    have hnn : isNullOpt (probeKeys preferKeys kvs) = false := by
      rw [hv]
      cases v with
      | null => exact absurd rfl hnv
      | bool b => rfl
      | num i => rfl
      | str s => rfl
      | arr l => rfl
      | obj o => rfl
    simp only [resolveV]
    rw [if_neg (by simp [hnn]), if_neg (by simp [hnn])]
    exact hv

/-- Claim C4 witness: the amended claim at a concrete object. -/
theorem c4_resolution_witness :
    resolveV [(("payload"), Json.str ("x.example.org"))] = some (Json.str ("x.example.org")) :=
  (c4_resolution [(("payload"), Json.str ("x.example.org"))]).2.1
    (Json.str ("x.example.org")) rfl (fun h => Json.noConfusion h)

/-- Claim C5 (confirmed): `flattenJson` keeps an object with a rule-ish
key and at most 30 keys as one candidate, flattens any other object
value-wise, concatenates arrays element-wise in order, drops `null`, and
turns any other primitive into its string representation. -/
theorem c5_flatten :
    (∀ kvs : List (String × Json),
      (kvs.any fun kv => ruleKeysList.contains kv.1) = true → kvs.length ≤ 30 →
        flattenJson (Json.obj kvs) = [Json.obj kvs])
    ∧ (∀ kvs : List (String × Json),
        ((kvs.any fun kv => ruleKeysList.contains kv.1) = false ∨ 30 < kvs.length) →
          flattenJson (Json.obj kvs) = kvs.flatMap fun kv => flattenJson kv.2)
    ∧ (∀ l : List Json, flattenJson (Json.arr l) = l.flatMap flattenJson)
    ∧ flattenJson Json.null = []
    ∧ (∀ b, flattenJson (Json.bool b) = [Json.str (jsToString (Json.bool b))])
    ∧ (∀ i, flattenJson (Json.num i) = [Json.str (jsToString (Json.num i))])
    ∧ (∀ s, flattenJson (Json.str s) = [Json.str s]) := by
  refine ⟨?_, ?_, ?_, rfl, fun b => rfl, fun i => rfl, fun s => rfl⟩
  · intro kvs h1 h2
    simp only [flattenJson]
    rw [if_pos (by rw [h1]; simp [h2])]
  · intro kvs h
    have hcond :
        ¬ ((kvs.any fun kv => ruleKeysList.contains kv.1) && decide (kvs.length ≤ 30)) = true := by
      intro hc
      simp only [Bool.and_eq_true, decide_eq_true_eq] at hc
      rcases h with h | h
      · rw [hc.1] at h; cases h
      · omega
    simp only [flattenJson]
    rw [if_neg hcond]
    exact flattenVals_eq kvs
  · intro l
    simp only [flattenJson]
    exact flattenArr_eq l

/-- Claim C5 witness: the flatten behaviors at concrete inputs. -/
theorem c5_flatten_witness :
    flattenJson (Json.obj [(("payload"), Json.null)]) = [Json.obj [(("payload"), Json.null)]]
    ∧ flattenJson (Json.obj [(("foo"), Json.num 1)]) = [Json.str ("1")]
    ∧ flattenJson (Json.arr [Json.null, Json.bool true]) = [Json.str ("true")] :=
  ⟨c5_flatten.1 _ (by decide) (by decide),
   by rw [c5_flatten.2.1 _ (Or.inl (by decide))]; rfl,
   by rw [c5_flatten.2.2.1]; rfl⟩

/-- Claim C6 (confirmed): a candidate whose trim matches the adblock
anchor `||...^` has the `||` prefix and trailing `^` stripped by the
capture, its captured domain trimmed and leading dots stripped; the
classifier emits `DOMAIN-SUFFIX,<domain>` when the result is non-empty
and nothing when it is empty. -/
theorem c6_adblock (s : String) (core : List Char)
    (h : matchAdblock (trimChars s.data) = some core) :
    toLoonLinesStr s =
      (if (trimChars core).dropWhile (fun c => c == '.') = [] then []
       else [mkLine ("DOMAIN-SUFFIX") ((trimChars core).dropWhile (fun c => c == '.'))]) :=
  adblock_classification s core h

/-- Claim C6 witness: `||ads.example.com^` yields exactly
`DOMAIN-SUFFIX,ads.example.com`. -/
theorem c6_adblock_witness :
    toLoonLinesStr ("||ads.example.com^") = [("DOMAIN-SUFFIX,ads.example.com")] :=
  (c6_adblock ("||ads.example.com^") (("ads.example.com") : String).data
    (by decide)).trans (by decide)

/-- Claim C7 (confirmed): an object candidate in which none of the probed
content keys is present emits exactly one fallback line
`REGEX,<escaped JSON text of the object>` (the embedding is total, so no
error is possible). -/
theorem c7_object_fallback (kvs : List (String × Json))
    (h : ∀ k ∈ preferKeys, lookupKey k kvs = none) :
    toLoonLines (Json.obj kvs) =
      [mkLine ("REGEX") (escapeForRegex (stringify (Json.obj kvs)))] := by
  have hpref : probeKeys preferKeys kvs = none := probeKeys_none h
  have hfall : probeKeys fallbackKeys kvs = none :=
    probeKeys_none fun k hk => h k (by fin_cases hk <;> decide)
  apply toLoonLines_obj_none
  simp [resolveV, hpref, hfall, isNullOpt]

/-- Claim C7 witness: `{"unexpectedKey": 123}` yields the escaped JSON
dump as a REGEX line. -/
theorem c7_object_fallback_witness :
    toLoonLines (Json.obj [(("unexpectedKey"), Json.num 123)])
      = [("REGEX,\\\x7b\"unexpectedKey\":123\\\x7d")] :=
  (c7_object_fallback [(("unexpectedKey"), Json.num 123)]
    (by intro k hk; fin_cases hk <;> rfl)).trans (by decide)

/-- Claim C8 (confirmed): first-occurrence deduplication of the general
variant keeps each distinct line exactly once, in insertion order (a
sublist of the emitted sequence, with first occurrences deciding
position); the schema-driven variant sorts the deduplicated set with a
comparator (`localeCompare`, modelled as an arbitrary comparator), which
preserves uniqueness and membership; both are pure functions of their
input, hence deterministic. -/
theorem c8_dedupe :
    (∀ ls : List String, (dedupe ls).Nodup)
    ∧ (∀ (ls : List String) (x : String), x ∈ dedupe ls ↔ x ∈ ls)
    ∧ (∀ ls : List String, (dedupe ls).Sublist ls)
    ∧ (∀ (x : String) (ls : List String),
        dedupe (x :: ls) = x :: dedupe (ls.filter fun y => decide (y ≠ x)))
    ∧ (∀ (le : String → String → Bool) (ls : List String),
        ((dedupe ls).mergeSort le).Nodup
        ∧ ∀ x, x ∈ (dedupe ls).mergeSort le ↔ x ∈ ls) := by
  have hmem : ∀ (ls : List String) (x : String), x ∈ dedupe ls ↔ x ∈ ls := by
    intro ls x
    unfold dedupe
    rw [dedupeAux_mem]
    simp
  refine ⟨fun ls => dedupeAux_nodup ls [], hmem, fun ls => dedupeAux_sublist ls [], ?_, ?_⟩
  · intro x ls
    rw [show dedupe (x :: ls) = x :: dedupeAux [x] ls from by simp [dedupe, dedupeAux]]
    exact congrArg (x :: ·) (dedupeAux_seen_filter ls [] x)
  · intro le ls
    refine ⟨(List.mergeSort_perm (dedupe ls) le).symm.nodup (dedupeAux_nodup ls []), ?_⟩
    intro x
    rw [(List.mergeSort_perm (dedupe ls) le).mem_iff]
    exact hmem ls x

/-- Claim C9 counterexample: the object `{"domain": "Example.COM/path?x=1"}`
(with a STRING-valued `domain`) contributes NO line in the schema-driven
variant, because its `main` only iterates `domain` values that are arrays;
the cleaner itself does map the string to `example.com`. -/
theorem c9_counterexample :
    schemaCollect
      (Json.obj [(("rules"),
        Json.arr [Json.obj [(("domain"), Json.str ("Example.COM/path?x=1"))]])])
      = some []
    ∧ cleanStr ("Example.COM/path?x=1") = some ("example.com") :=
  ⟨rfl, by decide⟩

/-- Claim C9 (amended): for every STRING ITEM of a `rules[].domain` ARRAY
that the cleaner accepts, the schema-driven variant emits
`DOMAIN-SUFFIX,<cleaned>`; the example object must carry the string inside
an array: `{"domain": ["Example.COM/path?x=1"]}` yields
`DOMAIN-SUFFIX,example.com`. -/
theorem c9_schema_domain (items : List Json) (s c : String)
    (hmem : Json.str s ∈ items) (hclean : cleanStr s = some c) :
    mkLine ("DOMAIN-SUFFIX") c.data ∈
      schemaLinesOfRule (Json.obj [(("domain"), Json.arr items)]) :=
  schemaRule_domain_mem hmem hclean

/-- Claim C9 witness: the amended claim at the example item, whose cleaned
form also exercises protocol/path/port/wildcard stripping. -/
theorem c9_schema_domain_witness :
    mkLine ("DOMAIN-SUFFIX") (("example.com" : String)).data ∈
      schemaLinesOfRule
        (Json.obj [(("domain"), Json.arr [Json.str ("Example.COM/path?x=1")])])
    ∧ cleanStr ("HTTPS://Sub.Example.COM:8080/p?q#f") = some ("sub.example.com") :=
  ⟨c9_schema_domain [Json.str ("Example.COM/path?x=1")] ("Example.COM/path?x=1")
      ("example.com") (List.mem_singleton.mpr rfl) (by decide),
   by decide⟩

/-- Claim C10 (confirmed): whenever `cleanDomainCandidate` returns a
value, it is a non-empty string over lowercase letters, digits, dots and
hyphens, with no leading or trailing dot or hyphen; every non-string input
and every string whose trim is empty returns `null`. -/
theorem c10_clean_invariant :
    (∀ (j : Json) (s : String), cleanDomainCandidate j = some s →
      s.data ≠ [] ∧ (∀ c ∈ s.data, validDomChar c = true) ∧
      (∀ c, s.data.head? = some c → edgeChar c = false) ∧
      (∀ c, s.data.getLast? = some c → edgeChar c = false))
    ∧ cleanDomainCandidate Json.null = none
    ∧ (∀ b, cleanDomainCandidate (Json.bool b) = none)
    ∧ (∀ i, cleanDomainCandidate (Json.num i) = none)
    ∧ (∀ l, cleanDomainCandidate (Json.arr l) = none)
    ∧ (∀ kvs, cleanDomainCandidate (Json.obj kvs) = none)
    ∧ (∀ s : String, trimChars s.data = [] → cleanDomainCandidate (Json.str s) = none) := by
  refine ⟨?_, rfl, fun b => rfl, fun i => rfl, fun l => rfl, fun kvs => rfl, ?_⟩
  · intro j s h
    cases j with
    | str raw => exact cleanStr_spec h
    | null => cases h
    | bool b => cases h
    | num i => cases h
    | arr l => cases h
    | obj kvs => cases h
  · intro s h
    simp only [cleanDomainCandidate, cleanStr]
    rw [if_pos (by simp [List.isEmpty_iff, h])]

/-- Claim C10 witness: the invariant at a concretely accepted input. -/
theorem c10_clean_invariant_witness : (("example.com" : String)).data ≠ [] :=
  (c10_clean_invariant.1 (Json.str ("Example.COM/path?x=1")) ("example.com") (by decide)).1

end LoonRule
